import Mathlib

/-!
MIPS-simulation.c: a shallow embedding and its verified properties

The C program is a single-instruction-at-a-time interpreter: a CPU record
(32 registers, a program counter, a 10-slot instruction memory, a 100-cell
data memory), an ALU function, and a fetch/decode/execute loop that stops at
the `halt` opcode.

Modelling conventions
* C `int` is a mathematical `Int`; the arithmetic of `execute_alu` is reduced
  into the signed 32-bit range by `wrap32` (two's-complement wraparound), and
  the bitwise operators act on the 32-bit two's-complement representation.
* C arrays are lists. The source performs every array access unchecked; an
  access outside the array bounds is undefined behaviour in C, and what it
  reads or overwrites depends on the memory layout, which is not modelled.
  The outcome `fault` marks a pass the embedding does not follow for that
  reason; it is not a stop the code makes.
* `char op[10]` is the NUL-terminated string it holds, so `strcmp(a, b) == 0`
  is string equality.
* The `while (1)` loop takes a fuel argument; running out of fuel is the
  outcome `out_of_fuel`, distinct from halting.
-/

namespace MIPS

/-! ## Constants and data types -/

/-- Mirrors `#define MEM_SIZE 10`. -/
def MEM_SIZE : Nat := 10

/-- Mirrors `#define DATA_MEM_SIZE 100`. -/
def DATA_MEM_SIZE : Nat := 100

/-- Number of registers, the `32` of `int regs[32]`. -/
def NUM_REGS : Nat := 32

/-- Mirrors `typedef enum { ALU_ADD, ALU_SUB, ALU_AND, ALU_OR, ALU_SLT } ALUOp_t`. -/
inductive ALUOp_t where
  | ALU_ADD
  | ALU_SUB
  | ALU_AND
  | ALU_OR
  | ALU_SLT
  deriving DecidableEq

/-- Mirrors `struct ALU`: the computed result and the zero flag. -/
structure ALU where
  result : Int
  zero : Int
  deriving DecidableEq

/-- Mirrors `struct Instruction`: type tag, three register numbers, an
immediate and the opcode name. -/
structure Instruction where
  type : Char
  rd : Int
  rs : Int
  rt : Int
  imm : Int
  op : String
  deriving DecidableEq

/-- Mirrors `struct CPU`. -/
structure CPU where
  regs : List Int
  pc : Int
  instr_mem : List Instruction
  data_mem : List Int
  deriving DecidableEq

/-! ## Fixed-width integers -/

/-- The 32-bit pattern of an `int`: its residue modulo `2^32`. -/
def toU32 (x : Int) : Nat := (x % 4294967296).toNat

/-- The `int` a 32-bit pattern stands for in two's complement. -/
def toS32 (n : Nat) : Int :=
  if n < 2147483648 then (n : Int) else (n : Int) - 4294967296

/-- Reduction of a mathematical integer into the range of `int`. -/
def wrap32 (x : Int) : Int := toS32 (toU32 x)

/-- The values an `int` can hold. -/
def IsInt32 (x : Int) : Prop := -2147483648 ≤ x ∧ x < 2147483648

instance (x : Int) : Decidable (IsInt32 x) := by
  unfold IsInt32; infer_instance

/-! ## init_cpu, execute_alu, load_instructions -/

/-- Mirrors `init_cpu`: both `memset`s and `cpu->pc = 0`; the instruction
memory is not touched. -/
def init_cpu (cpu : CPU) : CPU :=
  { cpu with
    regs := List.replicate NUM_REGS 0
    data_mem := List.replicate DATA_MEM_SIZE 0
    pc := 0 }

/-- Mirrors `execute_alu`: the `switch` on `alu_op`, then the zero flag. -/
def execute_alu (input1 input2 : Int) (alu_op : ALUOp_t) : ALU :=
  let result : Int :=
    match alu_op with
    | .ALU_ADD => wrap32 (input1 + input2)
    | .ALU_SUB => wrap32 (input1 - input2)
    | .ALU_AND => toS32 (toU32 input1 &&& toU32 input2)
    | .ALU_OR => toS32 (toU32 input1 ||| toU32 input2)
    | .ALU_SLT => if input1 < input2 then 1 else 0
  { result := result, zero := if result = 0 then 1 else 0 }

/-- Mirrors `load_instructions`: the eight assignments to `instr_mem[0..7]`;
slots 8 and 9 keep whatever they held. -/
def load_instructions (cpu : CPU) : CPU :=
  { cpu with
    instr_mem :=
      ((((((((cpu.instr_mem.set 0 ⟨'I', 8, 0, 0, 1, "addi"⟩).set 1
        ⟨'I', 9, 0, 0, 2, "addi"⟩).set 2
        ⟨'R', 10, 8, 9, 0, "add"⟩).set 3
        ⟨'R', 11, 10, 9, 0, "sub"⟩).set 4
        ⟨'R', 12, 8, 9, 0, "and"⟩).set 5
        ⟨'R', 13, 8, 9, 0, "or"⟩).set 6
        ⟨'R', 14, 10, 9, 0, "slt"⟩).set 7
        ⟨'I', 0, 0, 0, 0, "halt"⟩) }

/-! ## The loop of execute_pipeline -/

/-- The read `cpu->regs[r]`; `none` when `r` is outside the array. -/
def read_reg (cpu : CPU) (r : Int) : Option Int :=
  if 0 ≤ r ∧ r < (NUM_REGS : Int) then cpu.regs[r.toNat]? else none

/-- The write `cpu->regs[r] = v`; `none` when `r` is outside the array. -/
def write_reg (cpu : CPU) (r : Int) (v : Int) : Option CPU :=
  if 0 ≤ r ∧ r < (NUM_REGS : Int) ∧ r.toNat < cpu.regs.length then
    some { cpu with regs := cpu.regs.set r.toNat v }
  else none

/-- The fetch `cpu->instr_mem[cpu->pc]`; `none` when the program counter is
outside the array. -/
def fetch (cpu : CPU) : Option Instruction :=
  if 0 ≤ cpu.pc ∧ cpu.pc < (MEM_SIZE : Int) then cpu.instr_mem[cpu.pc.toNat]? else none

/-- What one pass through the body of `while (1)` does to the loop. -/
inductive Step where
  /-- The pass reached `cpu->pc++; cycle++`. -/
  | next (cpu : CPU)
  /-- The pass left the loop through `break`. -/
  | halt (cpu : CPU)
  /-- The pass read or wrote outside an array. -/
  | fault
  deriving DecidableEq

/-- The tail of the loop body, `cpu->pc++`. The fetch has succeeded, so
`pc < MEM_SIZE` and the increment cannot overflow. -/
def advance (cpu : CPU) : Step := .next { cpu with pc := cpu.pc + 1 }

/-- The statement `cpu->regs[rd] = alu.result;` followed by the loop tail;
`alu` is `none` when computing the ALU arguments read outside `regs`. -/
def write_back (cpu : CPU) (rd : Int) (alu : Option ALU) : Step :=
  match alu with
  | none => .fault
  | some a =>
    match write_reg cpu rd a.result with
    | none => .fault
    | some cpu1 => advance cpu1

/-- The call `execute_alu(cpu->regs[rs], cpu->regs[rt], alu_op)`. -/
def alu_reg_reg (cpu : CPU) (rs rt : Int) (alu_op : ALUOp_t) : Option ALU :=
  match read_reg cpu rs, read_reg cpu rt with
  | some a, some b => some (execute_alu a b alu_op)
  | _, _ => none

/-- The call `execute_alu(cpu->regs[rs], imm, alu_op)`. -/
def alu_reg_imm (cpu : CPU) (rs imm : Int) (alu_op : ALUOp_t) : Option ALU :=
  match read_reg cpu rs with
  | some a => some (execute_alu a imm alu_op)
  | none => none

/-- The `if / else if` chain on `instr.op` of the loop body, applied to the
fetched instruction, together with the loop tail. -/
def execute_instr (cpu : CPU) (instr : Instruction) : Step :=
  if instr.op = "addi" then
    write_back cpu instr.rd (alu_reg_imm cpu instr.rs instr.imm .ALU_ADD)
  else if instr.op = "add" then
    write_back cpu instr.rd (alu_reg_reg cpu instr.rs instr.rt .ALU_ADD)
  else if instr.op = "sub" then
    write_back cpu instr.rd (alu_reg_reg cpu instr.rs instr.rt .ALU_SUB)
  else if instr.op = "and" then
    write_back cpu instr.rd (alu_reg_reg cpu instr.rs instr.rt .ALU_AND)
  else if instr.op = "or" then
    write_back cpu instr.rd (alu_reg_reg cpu instr.rs instr.rt .ALU_OR)
  else if instr.op = "slt" then
    write_back cpu instr.rd (alu_reg_reg cpu instr.rs instr.rt .ALU_SLT)
  else if instr.op = "halt" then
    .halt cpu
  else
    advance cpu

/-- One pass through the loop body: fetch, then the opcode chain. -/
def step (cpu : CPU) : Step :=
  match fetch cpu with
  | none => .fault
  | some instr => execute_instr cpu instr

/-- How a run of `execute_pipeline` ends. -/
inductive Outcome where
  /-- The loop was left through `break`: final CPU, final value of `cycle`,
  and the lines printed, each a cycle number and an opcode name. -/
  | halted (cpu : CPU) (cycle : Nat) (trace : List (Nat × String))
  /-- The run accessed an array outside its bounds. -/
  | fault
  /-- The fuel ran out before the loop was left. -/
  | out_of_fuel
  deriving DecidableEq

/-- The `while (1)` loop with the local `cycle` and the printed lines as
explicit state. Each pass fetches, prints, and executes. -/
def execute_loop : Nat → CPU → Nat → List (Nat × String) → Outcome
  | 0, _, _, _ => .out_of_fuel
  | fuel + 1, cpu, cycle, trace =>
    match fetch cpu with
    | none => .fault
    | some instr =>
      match execute_instr cpu instr with
      | .fault => .fault
      | .halt cpu1 => .halted cpu1 cycle (trace ++ [(cycle, instr.op)])
      | .next cpu1 => execute_loop fuel cpu1 (cycle + 1) (trace ++ [(cycle, instr.op)])

/-- Mirrors `execute_pipeline`: `cycle = 0`, then the loop. -/
def execute_pipeline (fuel : Nat) (cpu : CPU) : Outcome :=
  execute_loop fuel cpu 0 []

/-- The state after `n` passes of the loop body that each reached the loop
tail; `none` if one of them halted or faulted. -/
def iterate_step : Nat → CPU → Option CPU
  | 0, cpu => some cpu
  | n + 1, cpu =>
    match step cpu with
    | .next cpu1 => iterate_step n cpu1
    | _ => none

/-- A CPU whose three arrays have the sizes the C declaration gives them. -/
def CPU.WellSized (cpu : CPU) : Prop :=
  cpu.regs.length = NUM_REGS ∧ cpu.instr_mem.length = MEM_SIZE ∧
    cpu.data_mem.length = DATA_MEM_SIZE

/-- A register number inside `regs`. -/
def ValidReg (r : Int) : Prop := 0 ≤ r ∧ r < 32

instance (r : Int) : Decidable (ValidReg r) := by
  unfold ValidReg; infer_instance

/-- An arbitrary starting CPU for concrete evaluations: nothing initialised
except ten `nop` slots of instruction memory. -/
def blank_cpu : CPU :=
  { regs := [], pc := 0, instr_mem := List.replicate 10 ⟨'R', 0, 0, 0, 0, "nop"⟩, data_mem := [] }

/-- An opcode name the `if / else if` chain has a branch for. -/
def KnownOp (op : String) : Prop :=
  op = "addi" ∨ op = "add" ∨ op = "sub" ∨ op = "and" ∨ op = "or" ∨ op = "slt" ∨ op = "halt"

instance (op : String) : Decidable (KnownOp op) := by
  unfold KnownOp; infer_instance

/-- One pass of the loop body from `cpu`, whose fetched instruction is
`instr`, reaches the loop tail with the program counter one higher and with
`v` in register `instr.rd`. -/
def StepWrites (cpu : CPU) (instr : Instruction) (v : Int) : Prop :=
  ∃ cpu1, step cpu = .next cpu1 ∧ cpu1.pc = cpu.pc + 1 ∧ read_reg cpu1 instr.rd = some v

/-- A state with the two-instruction program `nop; halt`, `nop` being a name
the opcode chain has no branch for. -/
def nop_cpu : CPU :=
  { (init_cpu blank_cpu) with
    instr_mem := (blank_cpu.instr_mem.set 0 ⟨'R', 8, 0, 0, 0, "nop"⟩).set 1
      ⟨'I', 0, 0, 0, 0, "halt"⟩ }

/-- A state about to execute `add $8, $8, $8` with 5 in register 8: the
destination is also both sources. -/
def add_self_cpu : CPU :=
  { regs := (List.replicate 32 0).set 8 5
    pc := 3
    instr_mem := (List.replicate 10 ⟨'R', 0, 0, 0, 0, "nop"⟩).set 3 ⟨'R', 8, 8, 8, 0, "add"⟩
    data_mem := List.replicate 100 0 }

/-- A state about to execute a `halt` that carries non-zero operand fields. -/
def halt_cpu : CPU :=
  { regs := (List.replicate 32 0).set 8 5
    pc := 2
    instr_mem := (List.replicate 10 ⟨'R', 0, 0, 0, 0, "nop"⟩).set 2 ⟨'R', 8, 40, -1, 9, "halt"⟩
    data_mem := List.replicate 100 0 }

/-- The eight instructions `load_instructions` stores, in order. -/
def canonical_program : List Instruction :=
  [⟨'I', 8, 0, 0, 1, "addi"⟩, ⟨'I', 9, 0, 0, 2, "addi"⟩, ⟨'R', 10, 8, 9, 0, "add"⟩,
    ⟨'R', 11, 10, 9, 0, "sub"⟩, ⟨'R', 12, 8, 9, 0, "and"⟩, ⟨'R', 13, 8, 9, 0, "or"⟩,
    ⟨'R', 14, 10, 9, 0, "slt"⟩, ⟨'I', 0, 0, 0, 0, "halt"⟩]

/-- The state `main` hands to `execute_pipeline`: `init_cpu` then
`load_instructions` on a CPU record with arbitrary prior contents. -/
def start_state (cpu : CPU) : CPU := load_instructions (init_cpu cpu)

/-- Instruction `i` of the canonical program (`halt` from index 7 on). -/
def canonical_instr (i : Nat) : Instruction :=
  canonical_program.getD i ⟨'I', 0, 0, 0, 0, "halt"⟩

/-- The register file the canonical program is expected to have built after
`i` instructions: the first `i` of the values 1, 2, 3, 1, 0, 3, 0 in
registers 8 onwards, zero elsewhere. -/
def canonical_regs (i : Nat) : List Int :=
  List.replicate 8 0 ++ ([1, 2, 3, 1, 0, 3, 0] : List Int).take i ++ List.replicate (24 - i) 0

/-- The state the canonical program is expected to be in after `i`
instructions; `g8` and `g9` are the contents of the two instruction slots
`load_instructions` does not assign. -/
def canonical_state (g8 g9 : Instruction) (i : Nat) : CPU :=
  { regs := canonical_regs i, pc := (i : Int),
    instr_mem := canonical_program ++ [g8, g9],
    data_mem := List.replicate 100 0 }

/-- The lines printed by the first `i` passes of the canonical run. -/
def canonical_trace (i : Nat) : List (Nat × String) :=
  (List.range i).map fun j => (j, (canonical_instr j).op)

/-- An opcode name with an ALU branch in the opcode chain. -/
def ArithOp (op : String) : Prop :=
  op = "addi" ∨ op = "add" ∨ op = "sub" ∨ op = "and" ∨ op = "or" ∨ op = "slt"

instance (op : String) : Decidable (ArithOp op) := by
  unfold ArithOp; infer_instance

/-- A type tag that contradicts the opcode name: tag `I` on a
register-register opcode, or tag `R` on `addi`. -/
def TypeInconsistent (instr : Instruction) : Prop :=
  (instr.type = 'I' ∧
      (instr.op = "add" ∨ instr.op = "sub" ∨ instr.op = "and" ∨ instr.op = "or" ∨
        instr.op = "slt")) ∨
    (instr.type = 'R' ∧ instr.op = "addi")

instance (instr : Instruction) : Decidable (TypeInconsistent instr) := by
  unfold TypeInconsistent; infer_instance

/-- A state about to execute an `add` that carries the type tag `I`, with 1
and 2 in registers 8 and 9. -/
def mistyped_cpu : CPU :=
  { regs := ((List.replicate 32 0).set 8 1).set 9 2
    pc := 0
    instr_mem := (List.replicate 10 ⟨'R', 0, 0, 0, 0, "nop"⟩).set 0 ⟨'I', 10, 8, 9, 0, "add"⟩
    data_mem := List.replicate 100 0 }

/-- A state about to execute an instruction named `lw`, a name the opcode
chain has no branch for, with 5 in register 8. -/
def lw_cpu : CPU :=
  { regs := (List.replicate 32 0).set 8 5
    pc := 4
    instr_mem := (List.replicate 10 ⟨'R', 0, 0, 0, 0, "nop"⟩).set 4 ⟨'I', 8, 0, 0, 4, "lw"⟩
    data_mem := List.replicate 100 0 }

/-- The initial state with the program `addi $0, $0, 5; halt`. -/
def reg0_cpu : CPU :=
  { (init_cpu blank_cpu) with
    instr_mem := (blank_cpu.instr_mem.set 0 ⟨'I', 0, 0, 0, 5, "addi"⟩).set 1
      ⟨'I', 0, 0, 0, 0, "halt"⟩ }

/-- The opcode name held in slot `j` of an instruction memory. -/
def op_at (mem : List Instruction) (j : Nat) : Option String :=
  (mem[j]?).map Instruction.op

/-- Slot `k` holds `halt` and no earlier slot does. -/
def FirstHaltAt (mem : List Instruction) (k : Nat) : Prop :=
  op_at mem k = some "halt" ∧ ∀ j, j < k → op_at mem j ≠ some "halt"

instance (mem : List Instruction) (k : Nat) : Decidable (FirstHaltAt mem k) := by
  unfold FirstHaltAt; infer_instance

/-- Every instruction of the store names registers inside `regs`. -/
def RegsInRange (mem : List Instruction) : Prop :=
  ∀ instr ∈ mem, ValidReg instr.rd ∧ ValidReg instr.rs ∧ ValidReg instr.rt

instance (mem : List Instruction) : Decidable (RegsInRange mem) := by
  unfold RegsInRange; infer_instance

/-- The lines the first `n` passes print when pass `j` fetches slot `j`. -/
def program_trace (mem : List Instruction) (n : Nat) : List (Nat × String) :=
  (List.range n).map fun j => (j, (op_at mem j).getD "")

/-- The initial state with the program `addi $8, $0, 1; nop; add $9, $8, $8;
halt`, whose second instruction has a name the opcode chain does not know. -/
def mixed_cpu : CPU :=
  { (init_cpu blank_cpu) with
    instr_mem := (((blank_cpu.instr_mem.set 0 ⟨'I', 8, 0, 0, 1, "addi"⟩).set 1
      ⟨'R', 0, 0, 0, 0, "nop"⟩).set 2 ⟨'R', 9, 8, 8, 0, "add"⟩).set 3
      ⟨'I', 0, 0, 0, 0, "halt"⟩ }

/-- Every register the pass over `instr` reads or writes is inside `regs`:
`rd` and `rs` for `addi`; `rd`, `rs` and `rt` for `add`, `sub`, `and`, `or`,
`slt`; nothing for any other opcode name, which touches no register. -/
def AccessesInRange (instr : Instruction) : Prop :=
  (instr.op = "addi" → ValidReg instr.rd ∧ ValidReg instr.rs) ∧
    (instr.op = "add" ∨ instr.op = "sub" ∨ instr.op = "and" ∨ instr.op = "or" ∨
        instr.op = "slt" →
      ValidReg instr.rd ∧ ValidReg instr.rs ∧ ValidReg instr.rt)

instance (instr : Instruction) : Decidable (AccessesInRange instr) := by
  unfold AccessesInRange; infer_instance

theorem toU32_lt (x : Int) : toU32 x < 4294967296 := by
  unfold toU32; omega

theorem toU32_zero : toU32 0 = 0 := by
  unfold toU32; omega

theorem toS32_isInt32 (n : Nat) (h : n < 4294967296) : IsInt32 (toS32 n) := by
  unfold IsInt32 toS32; split <;> omega

theorem toS32_toU32 (x : Int) (h : IsInt32 x) : toS32 (toU32 x) = x := by
  unfold IsInt32 at h; unfold toS32 toU32; split <;> omega

theorem wrap32_isInt32 (x : Int) : IsInt32 (wrap32 x) :=
  toS32_isInt32 _ (toU32_lt x)

theorem wrap32_emod (x : Int) : wrap32 x % 4294967296 = x % 4294967296 := by
  unfold wrap32 toS32 toU32; split <;> omega

theorem wrap32_of_isInt32 (x : Int) (h : IsInt32 x) : wrap32 x = x :=
  toS32_toU32 x h

/-! ## The ALU -/

/-- C4. For each of the five operation kinds and every pair of operands, the
zero flag returned by `execute_alu` is 1 exactly when the returned result is 0
(and it is 0 otherwise). -/
theorem C4_zero_flag_iff_result_zero (input1 input2 : Int) (alu_op : ALUOp_t) :
    ((execute_alu input1 input2 alu_op).zero = 1 ↔
        (execute_alu input1 input2 alu_op).result = 0) ∧
      ((execute_alu input1 input2 alu_op).zero = 0 ∨
        (execute_alu input1 input2 alu_op).zero = 1) := by
  by_cases h : (execute_alu input1 input2 alu_op).result = 0
  · have hz : (execute_alu input1 input2 alu_op).zero = 1 := by
      simp only [execute_alu] at h ⊢
      rw [if_pos h]
    exact ⟨⟨fun _ => h, fun _ => hz⟩, Or.inr hz⟩
  · have hz : (execute_alu input1 input2 alu_op).zero = 0 := by
      simp only [execute_alu] at h ⊢
      rw [if_neg h]
    exact ⟨⟨fun h1 => by rw [hz] at h1; exact absurd h1 (by decide), fun h0 => absurd h0 h⟩,
      Or.inl hz⟩

/-- C5. With `ALU_SLT`, `execute_alu` returns result 1 when `input1 < input2` as
signed integers and result 0 otherwise (equal operands and negative operands
included); 0 and 1 are the only possible results. -/
theorem C5_slt_result (input1 input2 : Int) :
    (input1 < input2 → (execute_alu input1 input2 .ALU_SLT).result = 1) ∧
      (¬ input1 < input2 → (execute_alu input1 input2 .ALU_SLT).result = 0) ∧
      ((execute_alu input1 input2 .ALU_SLT).result = 1 ↔ input1 < input2) ∧
      ((execute_alu input1 input2 .ALU_SLT).result = 0 ∨
        (execute_alu input1 input2 .ALU_SLT).result = 1) := by
  by_cases h : input1 < input2
  · have hr : (execute_alu input1 input2 .ALU_SLT).result = 1 := by
      simp only [execute_alu]; rw [if_pos h]
    exact ⟨fun _ => hr, fun hn => absurd h hn, ⟨fun _ => h, fun _ => hr⟩, Or.inr hr⟩
  · have hr : (execute_alu input1 input2 .ALU_SLT).result = 0 := by
      simp only [execute_alu]; rw [if_neg h]
    exact ⟨fun hl => absurd hl h, fun _ => hr,
      ⟨fun h1 => by rw [hr] at h1; exact absurd h1 (by decide), fun hl => absurd hl h⟩,
      Or.inl hr⟩

/-- C6. For all operands, so for all 32-bit signed ones, `execute_alu` with
`ALU_ADD` returns the one value of the signed 32-bit range congruent to `input1 + input2` modulo
2^32, and with `ALU_SUB` the one congruent to `input1 - input2`; the exact sum
or difference whenever that is in range. `ADD(2147483647, 1) = -2147483648`
and `SUB(-2147483648, 1) = 2147483647`. The function is total: there is no
error outcome. -/
theorem C6_add_sub_wraparound (input1 input2 : Int) :
    (IsInt32 (execute_alu input1 input2 .ALU_ADD).result ∧
        (execute_alu input1 input2 .ALU_ADD).result % 4294967296 =
          (input1 + input2) % 4294967296 ∧
        (IsInt32 (input1 + input2) →
          (execute_alu input1 input2 .ALU_ADD).result = input1 + input2)) ∧
      (IsInt32 (execute_alu input1 input2 .ALU_SUB).result ∧
        (execute_alu input1 input2 .ALU_SUB).result % 4294967296 =
          (input1 - input2) % 4294967296 ∧
        (IsInt32 (input1 - input2) →
          (execute_alu input1 input2 .ALU_SUB).result = input1 - input2)) ∧
      (execute_alu 2147483647 1 .ALU_ADD).result = -2147483648 ∧
      (execute_alu (-2147483648) 1 .ALU_SUB).result = 2147483647 := by
  refine ⟨⟨?_, ?_, ?_⟩, ⟨?_, ?_, ?_⟩, by decide, by decide⟩
  · exact wrap32_isInt32 _
  · exact wrap32_emod _
  · exact fun h => wrap32_of_isInt32 _ h
  · exact wrap32_isInt32 _
  · exact wrap32_emod _
  · exact fun h => wrap32_of_isInt32 _ h

/-- C7. For every 32-bit signed `x`, negative ones included, the result field
of `execute_alu` satisfies `AND(x, x) = x`, `OR(x, 0) = x` and
`AND(x, 0) = 0`. -/
theorem C7_bitwise_identities (x : Int) (hx : IsInt32 x) :
    (execute_alu x x .ALU_AND).result = x ∧
      (execute_alu x 0 .ALU_OR).result = x ∧
      (execute_alu x 0 .ALU_AND).result = 0 := by
  refine ⟨?_, ?_, ?_⟩
  · show toS32 (toU32 x &&& toU32 x) = x
    rw [Nat.and_self]; exact toS32_toU32 x hx
  · show toS32 (toU32 x ||| toU32 0) = x
    rw [toU32_zero, Nat.or_zero]; exact toS32_toU32 x hx
  · show toS32 (toU32 x &&& toU32 0) = 0
    rw [toU32_zero, Nat.and_zero]; rfl

theorem C7_bitwise_identities_witness :
    IsInt32 (-123456) ∧
      ((execute_alu (-123456) (-123456) .ALU_AND).result = -123456 ∧
        (execute_alu (-123456) 0 .ALU_OR).result = -123456 ∧
        (execute_alu (-123456) 0 .ALU_AND).result = 0) :=
  ⟨by decide, C7_bitwise_identities (-123456) (by decide)⟩

/-! ## Register file and fetch -/

theorem read_reg_of_valid (cpu : CPU) (r : Int) (hlen : cpu.regs.length = NUM_REGS)
    (hr : ValidReg r) : ∃ v, read_reg cpu r = some v := by
  unfold ValidReg at hr
  have hlt : r.toNat < cpu.regs.length := by rw [hlen]; unfold NUM_REGS; omega
  refine ⟨cpu.regs[r.toNat], ?_⟩
  unfold read_reg
  rw [if_pos (by unfold NUM_REGS; omega), List.getElem?_eq_getElem hlt]

theorem write_reg_of_valid (cpu : CPU) (r v : Int) (hlen : cpu.regs.length = NUM_REGS)
    (hr : ValidReg r) :
    write_reg cpu r v = some { cpu with regs := cpu.regs.set r.toNat v } := by
  unfold ValidReg at hr
  unfold write_reg
  rw [if_pos]
  rw [hlen]; unfold NUM_REGS; omega

theorem read_reg_set_self (cpu : CPU) (r v pc : Int) (hlen : cpu.regs.length = NUM_REGS)
    (hr : ValidReg r) :
    read_reg { cpu with regs := cpu.regs.set r.toNat v, pc := pc } r = some v := by
  unfold ValidReg at hr
  unfold read_reg
  rw [if_pos (by unfold NUM_REGS; omega)]
  exact List.getElem?_set_self (by rw [hlen]; unfold NUM_REGS; omega)

theorem read_reg_set_other (cpu : CPU) (rd r v pc : Int) (hrd : ValidReg rd) (hne : r ≠ rd) :
    read_reg { cpu with regs := cpu.regs.set rd.toNat v, pc := pc } r = read_reg cpu r := by
  unfold ValidReg at hrd
  unfold read_reg
  by_cases hr : 0 ≤ r ∧ r < (NUM_REGS : Int)
  · rw [if_pos hr, if_pos hr]
    exact List.getElem?_set_ne (by omega)
  · rw [if_neg hr, if_neg hr]

theorem write_back_some (cpu : CPU) (rd : Int) (alu : ALU) (hlen : cpu.regs.length = NUM_REGS)
    (hrd : ValidReg rd) :
    write_back cpu rd (some alu) =
      .next { cpu with regs := cpu.regs.set rd.toNat alu.result, pc := cpu.pc + 1 } := by
  simp only [write_back, write_reg_of_valid cpu rd alu.result hlen hrd, advance]

theorem alu_reg_reg_some (cpu : CPU) (rs rt a b : Int) (alu_op : ALUOp_t)
    (ha : read_reg cpu rs = some a) (hb : read_reg cpu rt = some b) :
    alu_reg_reg cpu rs rt alu_op = some (execute_alu a b alu_op) := by
  simp only [alu_reg_reg, ha, hb]

theorem alu_reg_imm_some (cpu : CPU) (rs imm a : Int) (alu_op : ALUOp_t)
    (ha : read_reg cpu rs = some a) :
    alu_reg_imm cpu rs imm alu_op = some (execute_alu a imm alu_op) := by
  simp only [alu_reg_imm, ha]

theorem step_of_fetch (cpu : CPU) (instr : Instruction) (hf : fetch cpu = some instr) :
    step cpu = execute_instr cpu instr := by
  simp only [step, hf]

/-- The three shapes a pass of the loop body can have when every array access
is in bounds: a register write followed by the loop tail, a `break`, or the
loop tail alone. -/
theorem execute_instr_shape (cpu : CPU) (instr : Instruction)
    (hlen : cpu.regs.length = NUM_REGS)
    (hrd : ValidReg instr.rd) (hrs : ValidReg instr.rs) (hrt : ValidReg instr.rt) :
    (∃ v, execute_instr cpu instr =
        .next { cpu with regs := cpu.regs.set instr.rd.toNat v, pc := cpu.pc + 1 }) ∨
      execute_instr cpu instr = .halt cpu ∨
      execute_instr cpu instr = .next { cpu with pc := cpu.pc + 1 } := by
  obtain ⟨a, ha⟩ := read_reg_of_valid cpu instr.rs hlen hrs
  obtain ⟨b, hb⟩ := read_reg_of_valid cpu instr.rt hlen hrt
  unfold execute_instr
  split
  · exact Or.inl ⟨_, by rw [alu_reg_imm_some _ _ _ _ _ ha, write_back_some _ _ _ hlen hrd]⟩
  split
  · exact Or.inl ⟨_, by rw [alu_reg_reg_some _ _ _ _ _ _ ha hb, write_back_some _ _ _ hlen hrd]⟩
  split
  · exact Or.inl ⟨_, by rw [alu_reg_reg_some _ _ _ _ _ _ ha hb, write_back_some _ _ _ hlen hrd]⟩
  split
  · exact Or.inl ⟨_, by rw [alu_reg_reg_some _ _ _ _ _ _ ha hb, write_back_some _ _ _ hlen hrd]⟩
  split
  · exact Or.inl ⟨_, by rw [alu_reg_reg_some _ _ _ _ _ _ ha hb, write_back_some _ _ _ hlen hrd]⟩
  split
  · exact Or.inl ⟨_, by rw [alu_reg_reg_some _ _ _ _ _ _ ha hb, write_back_some _ _ _ hlen hrd]⟩
  split
  · exact Or.inr (Or.inl rfl)
  · exact Or.inr (Or.inr rfl)

/-- A pass that writes `alu.result` to `rd` and reaches the loop tail is a
`StepWrites`. -/
theorem stepWrites_of_write_back (cpu : CPU) (instr : Instruction) (alu : ALU)
    (hlen : cpu.regs.length = NUM_REGS) (hrd : ValidReg instr.rd)
    (hs : step cpu = write_back cpu instr.rd (some alu)) :
    StepWrites cpu instr alu.result := by
  refine ⟨{ cpu with regs := cpu.regs.set instr.rd.toNat alu.result, pc := cpu.pc + 1 }, ?_,
    rfl, read_reg_set_self cpu instr.rd alu.result (cpu.pc + 1) hlen hrd⟩
  rw [hs, write_back_some _ _ _ hlen hrd]

/-! ## One pass of the loop body -/

/-- C2. From a CPU with 32 registers whose fetched instruction has `rd`, `rs`,
`rt` in 0..31, let `a` and `b` be the pre-step contents of registers `rs` and
`rt`. For opcode `addi` one pass of the loop body leaves
`execute_alu(a, imm, ALU_ADD).result` in register `rd`; for `add`, `sub`,
`and`, `or`, `slt` it leaves `execute_alu(a, b, op).result` with `op` being
`ALU_ADD`, `ALU_SUB`, `ALU_AND`, `ALU_OR`, `ALU_SLT` respectively; in each case
the program counter is increased by exactly 1. Nothing is assumed about `rd`
being different from `rs` or `rt`. -/
theorem C2_arith_step_writes_alu_result (cpu : CPU) (instr : Instruction)
    (hlen : cpu.regs.length = NUM_REGS) (hf : fetch cpu = some instr)
    (hrd : ValidReg instr.rd) (hrs : ValidReg instr.rs) (hrt : ValidReg instr.rt) :
    ∃ a b, read_reg cpu instr.rs = some a ∧ read_reg cpu instr.rt = some b ∧
      (instr.op = "addi" →
        StepWrites cpu instr (execute_alu a instr.imm .ALU_ADD).result) ∧
      (instr.op = "add" → StepWrites cpu instr (execute_alu a b .ALU_ADD).result) ∧
      (instr.op = "sub" → StepWrites cpu instr (execute_alu a b .ALU_SUB).result) ∧
      (instr.op = "and" → StepWrites cpu instr (execute_alu a b .ALU_AND).result) ∧
      (instr.op = "or" → StepWrites cpu instr (execute_alu a b .ALU_OR).result) ∧
      (instr.op = "slt" → StepWrites cpu instr (execute_alu a b .ALU_SLT).result) := by
  obtain ⟨a, ha⟩ := read_reg_of_valid cpu instr.rs hlen hrs
  obtain ⟨b, hb⟩ := read_reg_of_valid cpu instr.rt hlen hrt
  refine ⟨a, b, ha, hb, ?_, ?_, ?_, ?_, ?_, ?_⟩ <;> intro hop <;>
    apply stepWrites_of_write_back cpu instr _ hlen hrd <;>
    rw [step_of_fetch cpu instr hf] <;>
    simp [execute_instr, hop, alu_reg_imm_some _ _ _ _ _ ha,
      alu_reg_reg_some _ _ _ _ _ _ ha hb]

theorem C2_arith_step_writes_alu_result_witness :
    add_self_cpu.regs.length = NUM_REGS ∧
      fetch add_self_cpu = some ⟨'R', 8, 8, 8, 0, "add"⟩ ∧ ValidReg 8 ∧
      StepWrites add_self_cpu ⟨'R', 8, 8, 8, 0, "add"⟩ 10 := by
  refine ⟨by decide, by decide, by decide, ?_⟩
  obtain ⟨a, b, ha, hb, _, hadd, _⟩ :=
    C2_arith_step_writes_alu_result add_self_cpu ⟨'R', 8, 8, 8, 0, "add"⟩
      (by decide) (by decide) (by decide) (by decide) (by decide)
  have ha5 : a = 5 := Option.some.inj (ha.symm.trans (by decide))
  have hb5 : b = 5 := Option.some.inj (hb.symm.trans (by decide))
  subst ha5; subst hb5
  exact hadd rfl

/-- C3. When the fetched instruction has opcode `halt`, one pass of the loop
body leaves the loop with the CPU exactly as it was (program counter not
advanced, no register written), whatever `rd`, `rs`, `rt` and `imm` the
instruction carries; a run started there halts at once, for any positive
fuel, with that same CPU. -/
theorem C3_halt_leaves_state_unchanged (cpu : CPU) (instr : Instruction)
    (hf : fetch cpu = some instr) (hop : instr.op = "halt") :
    step cpu = .halt cpu ∧
      ∀ fuel cycle trace,
        execute_loop (fuel + 1) cpu cycle trace =
          .halted cpu cycle (trace ++ [(cycle, "halt")]) := by
  have he : execute_instr cpu instr = .halt cpu := by
    simp [execute_instr, hop]
  refine ⟨by rw [step_of_fetch cpu instr hf, he], ?_⟩
  intro fuel cycle trace
  simp only [execute_loop, hf, he, hop]

theorem C3_halt_leaves_state_unchanged_witness :
    fetch halt_cpu = some ⟨'R', 8, 40, -1, 9, "halt"⟩ ∧
      step halt_cpu = .halt halt_cpu ∧
      execute_pipeline 1 halt_cpu = .halted halt_cpu 0 [(0, "halt")] :=
  ⟨by decide,
    (C3_halt_leaves_state_unchanged halt_cpu ⟨'R', 8, 40, -1, 9, "halt"⟩ (by decide) rfl).1,
    (C3_halt_leaves_state_unchanged halt_cpu ⟨'R', 8, 40, -1, 9, "halt"⟩ (by decide) rfl).2
      0 0 []⟩

/-- C9. From a CPU with 32 registers whose fetched instruction has `rd`, `rs`,
`rt` in 0..31, one pass of the loop body (whatever the opcode name) does not
fault, and in the CPU it produces every register other than `rd` reads as
before, the number of registers is the same, and the data memory and the
instruction memory are equal to what they were. -/
theorem C9_step_frame (cpu : CPU) (instr : Instruction)
    (hlen : cpu.regs.length = NUM_REGS) (hf : fetch cpu = some instr)
    (hrd : ValidReg instr.rd) (hrs : ValidReg instr.rs) (hrt : ValidReg instr.rt) :
    ∃ cpu1, (step cpu = .next cpu1 ∨ step cpu = .halt cpu1) ∧
      (∀ r, r ≠ instr.rd → read_reg cpu1 r = read_reg cpu r) ∧
      cpu1.regs.length = cpu.regs.length ∧
      cpu1.data_mem = cpu.data_mem ∧
      cpu1.instr_mem = cpu.instr_mem := by
  rw [step_of_fetch cpu instr hf]
  rcases execute_instr_shape cpu instr hlen hrd hrs hrt with ⟨v, h⟩ | h | h
  · exact ⟨_, Or.inl h, fun r hne => read_reg_set_other cpu instr.rd r v _ hrd hne,
      List.length_set _ _ _, rfl, rfl⟩
  · exact ⟨_, Or.inr h, fun _ _ => rfl, rfl, rfl, rfl⟩
  · exact ⟨_, Or.inl h, fun _ _ => rfl, rfl, rfl, rfl⟩

theorem C9_step_frame_witness :
    add_self_cpu.regs.length = NUM_REGS ∧
      fetch add_self_cpu = some ⟨'R', 8, 8, 8, 0, "add"⟩ ∧ ValidReg 8 ∧
      ∃ cpu1, (step add_self_cpu = .next cpu1 ∨ step add_self_cpu = .halt cpu1) ∧
        (∀ r, r ≠ 8 → read_reg cpu1 r = read_reg add_self_cpu r) ∧
        cpu1.regs.length = add_self_cpu.regs.length ∧
        cpu1.data_mem = add_self_cpu.data_mem ∧
        cpu1.instr_mem = add_self_cpu.instr_mem :=
  ⟨by decide, by decide, by decide,
    C9_step_frame add_self_cpu ⟨'R', 8, 8, 8, 0, "add"⟩
      (by decide) (by decide) (by decide) (by decide) (by decide)⟩

/-- C10, as the code behaves. The loop has no error outcome for an opcode name
outside addi, add, sub, and, or, slt, halt: from the state `nop_cpu`, whose
fetched instruction is named `nop`, the pass reaches the loop tail with the
program counter advanced to 1, and the run goes on to the next instruction
and halts there normally. -/
theorem C10_unknown_opcode_counterexample :
    fetch nop_cpu = some ⟨'R', 8, 0, 0, 0, "nop"⟩ ∧ ¬ KnownOp "nop" ∧
      step nop_cpu = .next { nop_cpu with pc := 1 } ∧
      execute_pipeline 2 nop_cpu =
        .halted { nop_cpu with pc := 1 } 1 [(0, "nop"), (1, "halt")] := by
  decide

/-- C10, amended. When the fetched instruction has an opcode name that is none
of addi, add, sub, and, or, slt, halt, the pass of the loop body neither stops
nor reports anything: it reaches the loop tail, and the loop goes on from the
same CPU with the program counter one higher. No register index is read, so
this holds whatever `rd`, `rs` and `rt` are. -/
theorem C10_unknown_opcode_continues (cpu : CPU) (instr : Instruction)
    (hf : fetch cpu = some instr) (hop : ¬ KnownOp instr.op) :
    step cpu = .next { cpu with pc := cpu.pc + 1 } ∧
      step cpu ≠ .halt cpu ∧ step cpu ≠ .fault := by
  have he : step cpu = .next { cpu with pc := cpu.pc + 1 } := by
    unfold KnownOp at hop
    rw [step_of_fetch cpu instr hf]
    simp only [not_or] at hop
    obtain ⟨h1, h2, h3, h4, h5, h6, h7⟩ := hop
    simp only [execute_instr, h1, h2, h3, h4, h5, h6, h7, if_false, advance]
  rw [he]
  exact ⟨rfl, fun h => Step.noConfusion h, fun h => Step.noConfusion h⟩

theorem C10_unknown_opcode_continues_witness :
    fetch nop_cpu = some ⟨'R', 8, 0, 0, 0, "nop"⟩ ∧ ¬ KnownOp "nop" ∧
      (step nop_cpu = .next { nop_cpu with pc := nop_cpu.pc + 1 } ∧
        step nop_cpu ≠ .halt nop_cpu ∧ step nop_cpu ≠ .fault) :=
  ⟨by decide, by decide,
    C10_unknown_opcode_continues nop_cpu ⟨'R', 8, 0, 0, 0, "nop"⟩ (by decide) (by decide)⟩

/-! ## The canonical program -/

/-- After `init_cpu` and `load_instructions` the state is fully determined
except for instruction slots 8 and 9. -/
theorem start_state_eq (cpu : CPU) (hmem : cpu.instr_mem.length = MEM_SIZE) :
    ∃ g8 g9, load_instructions (init_cpu cpu) = canonical_state g8 g9 0 := by
  obtain ⟨regs, pc, im, dm⟩ := cpu
  simp only [MEM_SIZE] at hmem
  match im, hmem with
  | [_, _, _, _, _, _, _, _, g8, g9], _ => exact ⟨g8, g9, rfl⟩

theorem canonical_fetch (g8 g9 : Instruction) (i : Nat) (hi : i < 8) :
    fetch (canonical_state g8 g9 i) = some (canonical_instr i) := by
  interval_cases i <;> rfl

theorem canonical_execute_instr (g8 g9 : Instruction) (i : Nat) (hi : i < 7) :
    execute_instr (canonical_state g8 g9 i) (canonical_instr i) =
      .next (canonical_state g8 g9 (i + 1)) := by
  have hand : (execute_alu 1 2 .ALU_AND).result = 0 := by decide
  have hor : (execute_alu 1 2 .ALU_OR).result = 3 := by decide
  interval_cases i
  · rfl
  · rfl
  · rfl
  · rfl
  · have h : execute_instr (canonical_state g8 g9 4) (canonical_instr 4) =
        write_back (canonical_state g8 g9 4) 12
          (alu_reg_reg (canonical_state g8 g9 4) 8 9 .ALU_AND) := rfl
    rw [h, alu_reg_reg_some (canonical_state g8 g9 4) 8 9 1 2 .ALU_AND rfl rfl,
      write_back_some (canonical_state g8 g9 4) 12 _ rfl (by decide), hand]
    rfl
  · have h : execute_instr (canonical_state g8 g9 5) (canonical_instr 5) =
        write_back (canonical_state g8 g9 5) 13
          (alu_reg_reg (canonical_state g8 g9 5) 8 9 .ALU_OR) := rfl
    rw [h, alu_reg_reg_some (canonical_state g8 g9 5) 8 9 1 2 .ALU_OR rfl rfl,
      write_back_some (canonical_state g8 g9 5) 13 _ rfl (by decide), hor]
    rfl
  · rfl

theorem canonical_step (g8 g9 : Instruction) (i : Nat) (hi : i < 7) :
    step (canonical_state g8 g9 i) = .next (canonical_state g8 g9 (i + 1)) := by
  rw [step_of_fetch _ _ (canonical_fetch g8 g9 i (by omega)),
    canonical_execute_instr g8 g9 i hi]

theorem canonical_step_halt (g8 g9 : Instruction) :
    step (canonical_state g8 g9 7) = .halt (canonical_state g8 g9 7) := by
  rw [step_of_fetch _ _ (canonical_fetch g8 g9 7 (by omega))]; rfl

theorem execute_loop_next (cpu cpu1 : CPU) (instr : Instruction) (fuel cycle : Nat)
    (trace : List (Nat × String)) (hf : fetch cpu = some instr)
    (he : execute_instr cpu instr = .next cpu1) :
    execute_loop (fuel + 1) cpu cycle trace =
      execute_loop fuel cpu1 (cycle + 1) (trace ++ [(cycle, instr.op)]) := by
  simp only [execute_loop, hf, he]

theorem execute_loop_halt (cpu cpu1 : CPU) (instr : Instruction) (fuel cycle : Nat)
    (trace : List (Nat × String)) (hf : fetch cpu = some instr)
    (he : execute_instr cpu instr = .halt cpu1) :
    execute_loop (fuel + 1) cpu cycle trace =
      .halted cpu1 cycle (trace ++ [(cycle, instr.op)]) := by
  simp only [execute_loop, hf, he]

theorem canonical_trace_succ (i : Nat) :
    canonical_trace (i + 1) = canonical_trace i ++ [(i, (canonical_instr i).op)] := by
  simp only [canonical_trace, List.range_succ, List.map_append, List.map_cons, List.map_nil]

/-- The first `i` passes of the canonical run, for `i` up to 7. -/
theorem canonical_loop_upto (g8 g9 : Instruction) (i : Nat) (hi : i ≤ 7) (fuel : Nat) :
    execute_loop (fuel + i) (canonical_state g8 g9 0) 0 [] =
      execute_loop fuel (canonical_state g8 g9 i) i (canonical_trace i) := by
  induction i generalizing fuel with
  | zero => rfl
  | succ n ih =>
    have h1 : fuel + (n + 1) = (fuel + 1) + n := by omega
    rw [h1, ih (by omega) (fuel + 1),
      execute_loop_next _ _ _ _ _ _ (canonical_fetch g8 g9 n (by omega))
        (canonical_execute_instr g8 g9 n (by omega)),
      canonical_trace_succ]

/-- The canonical run with enough fuel. -/
theorem canonical_run (g8 g9 : Instruction) (fuel : Nat) (hfuel : 8 ≤ fuel) :
    execute_pipeline fuel (canonical_state g8 g9 0) =
      .halted (canonical_state g8 g9 7) 7 (canonical_trace 8) := by
  obtain ⟨k, rfl⟩ : ∃ k, fuel = (k + 1) + 7 := ⟨fuel - 8, by omega⟩
  unfold execute_pipeline
  rw [canonical_loop_upto g8 g9 7 (by omega) (k + 1),
    execute_loop_halt _ (canonical_state g8 g9 7) _ _ _ _
      (canonical_fetch g8 g9 7 (by omega)) rfl]
  rfl

/-- The canonical run with too little fuel. -/
theorem canonical_run_short (g8 g9 : Instruction) (fuel : Nat) (hfuel : fuel < 8) :
    execute_pipeline fuel (canonical_state g8 g9 0) = .out_of_fuel := by
  have h := canonical_loop_upto g8 g9 fuel (by omega) 0
  rw [Nat.zero_add] at h
  unfold execute_pipeline
  rw [h]; rfl

theorem canonical_iterate (g8 g9 : Instruction) (i : Nat) (hi : i ≤ 7) :
    iterate_step i (canonical_state g8 g9 0) = some (canonical_state g8 g9 i) := by
  have key : ∀ n j, j + n ≤ 7 →
      iterate_step n (canonical_state g8 g9 j) = some (canonical_state g8 g9 (j + n)) := by
    intro n
    induction n with
    | zero => intro j _; rfl
    | succ m ih =>
      intro j hj
      simp only [iterate_step, canonical_step g8 g9 j (by omega)]
      rw [ih (j + 1) (by omega)]
      congr 2; omega
  have h := key i 0 (by omega)
  rwa [Nat.zero_add] at h

/-- C1. Whatever the CPU record held before, after `init_cpu` (program counter
0, all 32 registers 0) and `load_instructions`, `execute_pipeline` with any
fuel of at least 8 halts, with registers 8..14 equal to 1, 2, 3, 1, 0, 3, 0
and the program counter equal to 7. -/
theorem C1_canonical_program_result (cpu : CPU) (hmem : cpu.instr_mem.length = MEM_SIZE)
    (fuel : Nat) (hfuel : 8 ≤ fuel) :
    (init_cpu cpu).pc = 0 ∧ (init_cpu cpu).regs = List.replicate 32 0 ∧
      ∃ final cycle trace,
        execute_pipeline fuel (load_instructions (init_cpu cpu)) = .halted final cycle trace ∧
        final.pc = 7 ∧
        read_reg final 8 = some 1 ∧ read_reg final 9 = some 2 ∧ read_reg final 10 = some 3 ∧
        read_reg final 11 = some 1 ∧ read_reg final 12 = some 0 ∧ read_reg final 13 = some 3 ∧
        read_reg final 14 = some 0 := by
  obtain ⟨g8, g9, hs⟩ := start_state_eq cpu hmem
  refine ⟨rfl, rfl, canonical_state g8 g9 7, 7, canonical_trace 8, ?_, rfl, rfl, rfl, rfl, rfl,
    rfl, rfl, rfl⟩
  rw [hs]
  exact canonical_run g8 g9 fuel hfuel

theorem C1_canonical_program_result_witness :
    blank_cpu.instr_mem.length = MEM_SIZE ∧ 8 ≤ 8 ∧
      ∃ final cycle trace,
        execute_pipeline 8 (load_instructions (init_cpu blank_cpu)) =
          .halted final cycle trace ∧
        final.pc = 7 ∧
        read_reg final 8 = some 1 ∧ read_reg final 9 = some 2 ∧ read_reg final 10 = some 3 ∧
        read_reg final 11 = some 1 ∧ read_reg final 12 = some 0 ∧ read_reg final 13 = some 3 ∧
        read_reg final 14 = some 0 :=
  ⟨by decide, by decide,
    (C1_canonical_program_result blank_cpu (by decide) 8 (by decide)).2.2⟩

/-- C8. On the canonical program from the initial state the loop makes exactly
seven passes that reach the loop tail: for each `i` from 0 to 6 the state
after `i` passes has program counter `i`, fetches an instruction of the
program that is not `halt`, and its pass advances the program counter to
`i + 1`. The state after the seventh has program counter 7, fetches `halt`,
and its pass leaves the loop. So the run halts with `cycle = 7` for every
fuel of at least 8 (eight passes), and for no smaller fuel. -/
theorem C8_canonical_run_length (cpu : CPU) (hmem : cpu.instr_mem.length = MEM_SIZE) :
    (∀ i, i < 7 → ∃ s s1,
        iterate_step i (load_instructions (init_cpu cpu)) = some s ∧ s.pc = i ∧
        fetch s = some (canonical_instr i) ∧ (canonical_instr i).op ≠ "halt" ∧
        KnownOp (canonical_instr i).op ∧
        step s = .next s1 ∧ s1.pc = s.pc + 1) ∧
      (∃ s, iterate_step 7 (load_instructions (init_cpu cpu)) = some s ∧ s.pc = 7 ∧
        fetch s = some (canonical_instr 7) ∧ (canonical_instr 7).op = "halt" ∧
        step s = .halt s) ∧
      (∀ fuel, 8 ≤ fuel → ∃ final trace,
        execute_pipeline fuel (load_instructions (init_cpu cpu)) = .halted final 7 trace ∧
        final.pc = 7 ∧ trace.length = 8) ∧
      (∀ fuel, fuel < 8 →
        execute_pipeline fuel (load_instructions (init_cpu cpu)) = .out_of_fuel) := by
  obtain ⟨g8, g9, hs⟩ := start_state_eq cpu hmem
  rw [hs]
  refine ⟨?_, ?_, ?_, ?_⟩
  · intro i hi
    refine ⟨canonical_state g8 g9 i, canonical_state g8 g9 (i + 1),
      canonical_iterate g8 g9 i (by omega), rfl, canonical_fetch g8 g9 i (by omega), ?_, ?_,
      canonical_step g8 g9 i hi, ?_⟩
    · interval_cases i <;> decide
    · interval_cases i <;> decide
    · simp only [canonical_state]; push_cast; rfl
  · exact ⟨canonical_state g8 g9 7, canonical_iterate g8 g9 7 (by omega), rfl,
      canonical_fetch g8 g9 7 (by omega), rfl, canonical_step_halt g8 g9⟩
  · intro fuel hfuel
    exact ⟨canonical_state g8 g9 7, canonical_trace 8, canonical_run g8 g9 fuel hfuel, rfl, rfl⟩
  · intro fuel hfuel
    exact canonical_run_short g8 g9 fuel hfuel

theorem C8_canonical_run_length_witness :
    blank_cpu.instr_mem.length = MEM_SIZE ∧
      (∃ final trace,
        execute_pipeline 8 (load_instructions (init_cpu blank_cpu)) = .halted final 7 trace ∧
        final.pc = 7 ∧ trace.length = 8) ∧
      execute_pipeline 7 (load_instructions (init_cpu blank_cpu)) = .out_of_fuel :=
  ⟨by decide,
    (C8_canonical_run_length blank_cpu (by decide)).2.2.1 8 (by decide),
    (C8_canonical_run_length blank_cpu (by decide)).2.2.2 7 (by decide)⟩

/-! ## What a pass does with the instruction it fetched -/

/-- The value an arithmetic instruction computes does not depend on `rd`, and
it is stored at whichever in-range `rd` the instruction names. -/
theorem execute_instr_arith_value (cpu : CPU) (instr : Instruction)
    (hlen : cpu.regs.length = NUM_REGS) (hop : ArithOp instr.op)
    (hrs : ValidReg instr.rs) (hrt : ValidReg instr.rt) :
    ∃ v, ∀ rd, ValidReg rd →
      execute_instr cpu { instr with rd := rd } =
        .next { cpu with regs := cpu.regs.set rd.toNat v, pc := cpu.pc + 1 } := by
  obtain ⟨a, ha⟩ := read_reg_of_valid cpu instr.rs hlen hrs
  obtain ⟨b, hb⟩ := read_reg_of_valid cpu instr.rt hlen hrt
  rcases hop with h | h | h | h | h | h
  · exact ⟨(execute_alu a instr.imm .ALU_ADD).result, fun rd hrd => by
      simp [execute_instr, h, alu_reg_imm_some _ _ _ _ _ ha, write_back_some _ _ _ hlen hrd]⟩
  · exact ⟨(execute_alu a b .ALU_ADD).result, fun rd hrd => by
      simp [execute_instr, h, alu_reg_reg_some _ _ _ _ _ _ ha hb,
        write_back_some _ _ _ hlen hrd]⟩
  · exact ⟨(execute_alu a b .ALU_SUB).result, fun rd hrd => by
      simp [execute_instr, h, alu_reg_reg_some _ _ _ _ _ _ ha hb,
        write_back_some _ _ _ hlen hrd]⟩
  · exact ⟨(execute_alu a b .ALU_AND).result, fun rd hrd => by
      simp [execute_instr, h, alu_reg_reg_some _ _ _ _ _ _ ha hb,
        write_back_some _ _ _ hlen hrd]⟩
  · exact ⟨(execute_alu a b .ALU_OR).result, fun rd hrd => by
      simp [execute_instr, h, alu_reg_reg_some _ _ _ _ _ _ ha hb,
        write_back_some _ _ _ hlen hrd]⟩
  · exact ⟨(execute_alu a b .ALU_SLT).result, fun rd hrd => by
      simp [execute_instr, h, alu_reg_reg_some _ _ _ _ _ _ ha hb,
        write_back_some _ _ _ hlen hrd]⟩

theorem execute_instr_unknown (cpu : CPU) (instr : Instruction) (hop : ¬ KnownOp instr.op) :
    execute_instr cpu instr = .next { cpu with pc := cpu.pc + 1 } := by
  unfold KnownOp at hop
  simp only [not_or] at hop
  obtain ⟨h1, h2, h3, h4, h5, h6, h7⟩ := hop
  simp only [execute_instr, h1, h2, h3, h4, h5, h6, h7, if_false, advance]

/-! ## Accesses the loop does not check -/

theorem fetch_in_range (cpu : CPU) (hmem : cpu.instr_mem.length = MEM_SIZE)
    (hpc : 0 ≤ cpu.pc ∧ cpu.pc < (MEM_SIZE : Int)) :
    ∃ instr, cpu.instr_mem[cpu.pc.toNat]? = some instr ∧ fetch cpu = some instr := by
  have hlt : cpu.pc.toNat < cpu.instr_mem.length := by
    rw [hmem]; unfold MEM_SIZE at hpc ⊢; omega
  refine ⟨cpu.instr_mem[cpu.pc.toNat], List.getElem?_eq_getElem hlt, ?_⟩
  unfold fetch
  rw [if_pos hpc, List.getElem?_eq_getElem hlt]

theorem execute_instr_type_irrelevant (cpu : CPU) (instr : Instruction) (t : Char) :
    execute_instr cpu { instr with type := t } = execute_instr cpu instr := rfl

theorem arithOp_of_typeInconsistent (instr : Instruction) (h : TypeInconsistent instr) :
    ArithOp instr.op := by
  unfold TypeInconsistent at h
  unfold ArithOp
  rcases h with ⟨_, h | h | h | h | h⟩ | ⟨_, h⟩ <;> simp [h]

/-- C12, as the code behaves. An `add` carrying the type tag `I` is not
fatal: the pass computes 1 + 2 from registers 8 and 9, writes 3 to register
10 and advances the program counter. -/
theorem C12_type_mismatch_counterexample :
    fetch mistyped_cpu = some ⟨'I', 10, 8, 9, 0, "add"⟩ ∧
      TypeInconsistent ⟨'I', 10, 8, 9, 0, "add"⟩ ∧
      step mistyped_cpu =
        .next { mistyped_cpu with regs := mistyped_cpu.regs.set 10 3, pc := 1 } := by
  decide

/-- C12, amended. The opcode chain never reads the type tag. An instruction
whose tag contradicts its opcode, with `rd`, `rs`, `rt` in 0..31 on a CPU with
32 registers, is executed like any other: the pass writes register `rd`,
advances the program counter by 1 and goes on, and it does exactly what the
same instruction does under any other tag. -/
theorem C12_type_tag_ignored (cpu : CPU) (instr : Instruction)
    (hlen : cpu.regs.length = NUM_REGS) (hf : fetch cpu = some instr)
    (hrd : ValidReg instr.rd) (hrs : ValidReg instr.rs) (hrt : ValidReg instr.rt)
    (hinc : TypeInconsistent instr) :
    (∃ v, step cpu =
        .next { cpu with regs := cpu.regs.set instr.rd.toNat v, pc := cpu.pc + 1 }) ∧
      ∀ t, execute_instr cpu { instr with type := t } = step cpu := by
  obtain ⟨v, hv⟩ := execute_instr_arith_value cpu instr hlen
    (arithOp_of_typeInconsistent instr hinc) hrs hrt
  rw [step_of_fetch cpu instr hf]
  exact ⟨⟨v, hv instr.rd hrd⟩, fun t => execute_instr_type_irrelevant cpu instr t⟩

theorem C12_type_tag_ignored_witness :
    mistyped_cpu.regs.length = NUM_REGS ∧
      fetch mistyped_cpu = some ⟨'I', 10, 8, 9, 0, "add"⟩ ∧
      TypeInconsistent ⟨'I', 10, 8, 9, 0, "add"⟩ ∧
      ((∃ v, step mistyped_cpu =
          .next { mistyped_cpu with
                  regs := mistyped_cpu.regs.set (10 : Int).toNat v,
                  pc := mistyped_cpu.pc + 1 }) ∧
        ∀ t, execute_instr mistyped_cpu { (⟨'I', 10, 8, 9, 0, "add"⟩ : Instruction) with
            type := t } = step mistyped_cpu) :=
  ⟨by decide, by decide, by decide,
    C12_type_tag_ignored mistyped_cpu ⟨'I', 10, 8, 9, 0, "add"⟩
      (by decide) (by decide) (by decide) (by decide) (by decide) (by decide)⟩

/-- C15. When the fetched instruction has an opcode name that is none of addi,
add, sub, and, or, slt, halt, the pass of the source's loop body leaves the
registers, the data memory and the instruction memory as they were, advances
the program counter by 1, and the loop goes on with the next pass (cycle
counter one higher, the line for this instruction printed). No register index
is used, so nothing is assumed about `rd`, `rs`, `rt`. -/
theorem C15_unknown_opcode_is_noop (cpu : CPU) (instr : Instruction)
    (hf : fetch cpu = some instr) (hop : ¬ KnownOp instr.op) :
    ∃ cpu1, step cpu = .next cpu1 ∧ cpu1.regs = cpu.regs ∧ cpu1.data_mem = cpu.data_mem ∧
      cpu1.instr_mem = cpu.instr_mem ∧ cpu1.pc = cpu.pc + 1 ∧
      ∀ fuel cycle trace,
        execute_loop (fuel + 1) cpu cycle trace =
          execute_loop fuel cpu1 (cycle + 1) (trace ++ [(cycle, instr.op)]) := by
  have he := execute_instr_unknown cpu instr hop
  refine ⟨{ cpu with pc := cpu.pc + 1 }, ?_, rfl, rfl, rfl, rfl, ?_⟩
  · rw [step_of_fetch cpu instr hf, he]
  · intro fuel cycle trace
    exact execute_loop_next cpu _ instr fuel cycle trace hf he

theorem C15_unknown_opcode_is_noop_witness :
    fetch lw_cpu = some ⟨'I', 8, 0, 0, 4, "lw"⟩ ∧ ¬ KnownOp "lw" ∧
      ∃ cpu1, step lw_cpu = .next cpu1 ∧ cpu1.regs = lw_cpu.regs ∧
        cpu1.data_mem = lw_cpu.data_mem ∧ cpu1.instr_mem = lw_cpu.instr_mem ∧
        cpu1.pc = lw_cpu.pc + 1 ∧
        ∀ fuel cycle trace,
          execute_loop (fuel + 1) lw_cpu cycle trace =
            execute_loop fuel cpu1 (cycle + 1) (trace ++ [(cycle, "lw")]) :=
  ⟨by decide, by decide,
    C15_unknown_opcode_is_noop lw_cpu ⟨'I', 8, 0, 0, 4, "lw"⟩ (by decide) (by decide)⟩

/-! ## Register 0 -/

/-- C17. Register 0 is an ordinary register. The program `addi $0, $0, 5; halt`
run from the initial state halts with 5 in register 0. In general, on a CPU
with 32 registers, an arithmetic instruction with `rd = 0` and `rs`, `rt` in
0..31 stores its ALU value in register 0, and that value and the way it is
stored are the same as for any other in-range destination: naming `rd`
instead of 0 stores the same value at index `rd`. -/
theorem C17_register_zero_is_writable :
    (execute_pipeline 2 reg0_cpu =
        .halted { reg0_cpu with regs := reg0_cpu.regs.set 0 5, pc := 1 } 1
          [(0, "addi"), (1, "halt")] ∧
      read_reg reg0_cpu 0 = some 0 ∧
      read_reg { reg0_cpu with regs := reg0_cpu.regs.set 0 5, pc := 1 } 0 = some 5) ∧
    ∀ (cpu : CPU) (instr : Instruction), cpu.regs.length = NUM_REGS →
      fetch cpu = some instr → instr.rd = 0 → ArithOp instr.op →
      ValidReg instr.rs → ValidReg instr.rt →
      ∃ v, step cpu = .next { cpu with regs := cpu.regs.set 0 v, pc := cpu.pc + 1 } ∧
        read_reg { cpu with regs := cpu.regs.set 0 v, pc := cpu.pc + 1 } 0 = some v ∧
        ∀ rd, ValidReg rd →
          execute_instr cpu { instr with rd := rd } =
            .next { cpu with regs := cpu.regs.set rd.toNat v, pc := cpu.pc + 1 } := by
  refine ⟨by decide, ?_⟩
  intro cpu instr hlen hf hrd hop hrs hrt
  obtain ⟨v, hv⟩ := execute_instr_arith_value cpu instr hlen hop hrs hrt
  refine ⟨v, ?_, read_reg_set_self cpu 0 v (cpu.pc + 1) hlen (by decide), hv⟩
  have h1 : execute_instr cpu instr =
      .next { cpu with regs := cpu.regs.set instr.rd.toNat v, pc := cpu.pc + 1 } :=
    hv instr.rd (by rw [hrd]; decide)
  rw [hrd] at h1
  rw [step_of_fetch cpu instr hf]
  exact h1

theorem C17_register_zero_is_writable_witness :
    reg0_cpu.regs.length = NUM_REGS ∧ fetch reg0_cpu = some ⟨'I', 0, 0, 0, 5, "addi"⟩ ∧
      ArithOp "addi" ∧
      ∃ v, step reg0_cpu =
          .next { reg0_cpu with regs := reg0_cpu.regs.set 0 v, pc := reg0_cpu.pc + 1 } ∧
        read_reg { reg0_cpu with regs := reg0_cpu.regs.set 0 v, pc := reg0_cpu.pc + 1 } 0 =
          some v ∧
        ∀ rd, ValidReg rd →
          execute_instr reg0_cpu { (⟨'I', 0, 0, 0, 5, "addi"⟩ : Instruction) with rd := rd } =
            .next { reg0_cpu with
                    regs := reg0_cpu.regs.set rd.toNat v, pc := reg0_cpu.pc + 1 } :=
  ⟨by decide, by decide, by decide,
    C17_register_zero_is_writable.2 reg0_cpu ⟨'I', 0, 0, 0, 5, "addi"⟩
      (by decide) (by decide) rfl (by decide) (by decide) (by decide)⟩

/-! ## The zero flag of a subtraction -/

/-- C19. For 32-bit signed `x` and `y`, `execute_alu` with `ALU_SUB` sets the
zero flag to 1 exactly when `x = y` and to 0 exactly when `x ≠ y`, also when
`x - y` lies outside the 32-bit range and is wrapped. -/
theorem C19_sub_zero_flag_iff_equal (x y : Int) (hx : IsInt32 x) (hy : IsInt32 y) :
    ((execute_alu x y .ALU_SUB).zero = 1 ↔ x = y) ∧
      ((execute_alu x y .ALU_SUB).zero = 0 ↔ x ≠ y) := by
  unfold IsInt32 at hx hy
  have hw : wrap32 (x - y) = 0 ↔ x = y := by
    unfold wrap32 toS32 toU32
    constructor
    · intro h
      split at h <;> omega
    · intro h
      subst h
      split <;> omega
  by_cases hxy : x = y
  · have hz : (execute_alu x y .ALU_SUB).zero = 1 := by
      simp only [execute_alu]; rw [if_pos (hw.mpr hxy)]
    rw [hz]
    exact ⟨⟨fun _ => hxy, fun _ => rfl⟩, ⟨fun h => absurd h (by decide), fun h => absurd hxy h⟩⟩
  · have hz : (execute_alu x y .ALU_SUB).zero = 0 := by
      simp only [execute_alu]; rw [if_neg (fun h => hxy (hw.mp h))]
    rw [hz]
    exact ⟨⟨fun h => absurd h (by decide), fun h => absurd h hxy⟩, ⟨fun _ => hxy, fun _ => rfl⟩⟩

theorem C19_sub_zero_flag_iff_equal_witness :
    IsInt32 (-2147483648) ∧ IsInt32 2147483647 ∧
      (execute_alu (-2147483648) 2147483647 .ALU_SUB).result = 1 ∧
      (((execute_alu (-2147483648) 2147483647 .ALU_SUB).zero = 1 ↔
          (-2147483648 : Int) = 2147483647) ∧
        ((execute_alu (-2147483648) 2147483647 .ALU_SUB).zero = 0 ↔
          (-2147483648 : Int) ≠ 2147483647)) :=
  ⟨by decide, by decide, by decide,
    C19_sub_zero_flag_iff_equal (-2147483648) 2147483647 (by decide) (by decide)⟩

/-! ## Runs of an arbitrary program -/

theorem knownOp_iff (op : String) : KnownOp op ↔ ArithOp op ∨ op = "halt" := by
  unfold KnownOp ArithOp
  simp only [or_assoc]

/-- A pass over an instruction other than `halt`, with every register index
in range, reaches the loop tail and touches only `regs` and `pc`. -/
theorem execute_instr_not_halt (cpu : CPU) (instr : Instruction)
    (hlen : cpu.regs.length = NUM_REGS)
    (hrd : ValidReg instr.rd) (hrs : ValidReg instr.rs) (hrt : ValidReg instr.rt)
    (hop : instr.op ≠ "halt") :
    ∃ s, execute_instr cpu instr = .next s ∧ s.pc = cpu.pc + 1 ∧
      s.instr_mem = cpu.instr_mem ∧ s.regs.length = NUM_REGS ∧ s.data_mem = cpu.data_mem := by
  by_cases ha : ArithOp instr.op
  · obtain ⟨v, hv⟩ := execute_instr_arith_value cpu instr hlen ha hrs hrt
    exact ⟨_, hv instr.rd hrd, rfl, rfl, by simp only [List.length_set]; exact hlen, rfl⟩
  · have hk : ¬ KnownOp instr.op := by
      rw [knownOp_iff]
      exact fun h => h.elim ha hop
    exact ⟨_, execute_instr_unknown cpu instr hk, rfl, rfl, hlen, rfl⟩

theorem iterate_step_add (a b : Nat) (cpu : CPU) :
    iterate_step (a + b) cpu = (iterate_step a cpu).bind (iterate_step b) := by
  induction a generalizing cpu with
  | zero => simp only [Nat.zero_add, iterate_step, Option.some_bind]
  | succ n ih =>
    have h1 : n + 1 + b = (n + b) + 1 := by omega
    rw [h1]
    simp only [iterate_step]
    cases hs : step cpu with
    | next c => simp only [ih c]
    | halt c => simp only [Option.none_bind]
    | fault => simp only [Option.none_bind]

theorem iterate_step_succ_end (n : Nat) (cpu s s1 : CPU) (hn : iterate_step n cpu = some s)
    (hs : step s = .next s1) : iterate_step (n + 1) cpu = some s1 := by
  rw [iterate_step_add, hn]
  simp only [Option.some_bind, iterate_step, hs]

theorem iterate_step_stops (n m : Nat) (cpu s : CPU) (hn : iterate_step n cpu = some s)
    (hs : ∀ s1, step s ≠ .next s1) (hm : n < m) : iterate_step m cpu = none := by
  obtain ⟨d, rfl⟩ : ∃ d, m = n + (d + 1) := ⟨m - n - 1, by omega⟩
  rw [iterate_step_add, hn]
  show iterate_step (d + 1) s = none
  unfold iterate_step
  cases hstep : step s with
  | next c => exact absurd hstep (hs c)
  | halt c => rfl
  | fault => rfl

theorem op_at_eq_some (mem : List Instruction) (j : Nat) (instr : Instruction)
    (h : mem[j]? = some instr) : op_at mem j = some instr.op := by
  simp only [op_at, h, Option.map_some']

theorem program_trace_succ (mem : List Instruction) (n : Nat) :
    program_trace mem (n + 1) = program_trace mem n ++ [(n, (op_at mem n).getD "")] := by
  simp only [program_trace, List.range_succ, List.map_append, List.map_cons, List.map_nil]

theorem accessesInRange_of_valid (instr : Instruction)
    (h : ValidReg instr.rd ∧ ValidReg instr.rs ∧ ValidReg instr.rt) :
    AccessesInRange instr :=
  ⟨fun _ => ⟨h.1, h.2.1⟩, fun _ => h⟩

theorem accessesInRange_take (mem : List Instruction) (k : Nat) (hregs : RegsInRange mem) :
    ∀ instr ∈ mem.take k, AccessesInRange instr :=
  fun instr hin => accessesInRange_of_valid instr (hregs instr (List.mem_of_mem_take hin))

/-- A pass over an instruction other than `halt` whose register accesses are
all inside `regs` reaches the loop tail and touches only `regs` and `pc`. -/
theorem execute_instr_in_range (cpu : CPU) (instr : Instruction)
    (hlen : cpu.regs.length = NUM_REGS) (hacc : AccessesInRange instr)
    (hop : instr.op ≠ "halt") :
    ∃ s, execute_instr cpu instr = .next s ∧ s.pc = cpu.pc + 1 ∧
      s.instr_mem = cpu.instr_mem ∧ s.regs.length = NUM_REGS ∧ s.data_mem = cpu.data_mem := by
  by_cases h1 : instr.op = "addi"
  · obtain ⟨hrd, hrs⟩ := hacc.1 h1
    obtain ⟨a, ha⟩ := read_reg_of_valid cpu instr.rs hlen hrs
    have he : execute_instr cpu instr =
        .next { cpu with
                regs := cpu.regs.set instr.rd.toNat (execute_alu a instr.imm .ALU_ADD).result,
                pc := cpu.pc + 1 } := by
      simp [execute_instr, h1, alu_reg_imm_some _ _ _ _ _ ha, write_back_some _ _ _ hlen hrd]
    exact ⟨_, he, rfl, rfl, by simp only [List.length_set]; exact hlen, rfl⟩
  · by_cases h2 : instr.op = "add" ∨ instr.op = "sub" ∨ instr.op = "and" ∨
        instr.op = "or" ∨ instr.op = "slt"
    · obtain ⟨hrd, hrs, hrt⟩ := hacc.2 h2
      exact execute_instr_not_halt cpu instr hlen hrd hrs hrt hop
    · have hk : ¬ KnownOp instr.op := by
        rw [knownOp_iff]
        unfold ArithOp
        rintro ((h | h) | h)
        · exact h1 h
        · exact h2 h
        · exact hop h
      exact ⟨_, execute_instr_unknown cpu instr hk, rfl, rfl, hlen, rfl⟩

/-- The first `n` passes of a run from program counter 0, when no slot below
`k` holds `halt`, `n ≤ k ≤ MEM_SIZE`, and the instructions in the slots below
`k` access only registers inside `regs`: each pass fetches the slot the
program counter names and moves on by one. -/
theorem run_upto_acc (cpu : CPU) (k : Nat) (hpc : cpu.pc = 0)
    (hlen : cpu.regs.length = NUM_REGS) (hmem : cpu.instr_mem.length = MEM_SIZE)
    (hacc : ∀ instr ∈ cpu.instr_mem.take k, AccessesInRange instr) (hk : k ≤ MEM_SIZE)
    (hno : ∀ j, j < k → op_at cpu.instr_mem j ≠ some "halt") (n : Nat) (hn : n ≤ k) :
    ∃ s, s.pc = (n : Int) ∧ s.instr_mem = cpu.instr_mem ∧ s.regs.length = NUM_REGS ∧
      s.data_mem = cpu.data_mem ∧ iterate_step n cpu = some s ∧
      ∀ fuel, execute_loop (fuel + n) cpu 0 [] =
        execute_loop fuel s n (program_trace cpu.instr_mem n) := by
  induction n with
  | zero => exact ⟨cpu, by rw [hpc]; rfl, rfl, hlen, rfl, rfl, fun _ => rfl⟩
  | succ m ih =>
    obtain ⟨s, hspc, hsmem, hslen, hsdm, hsit, hsloop⟩ := ih (by omega)
    have hm : m < MEM_SIZE := by omega
    obtain ⟨instr, hget, hf⟩ := fetch_in_range s (by rw [hsmem]; exact hmem)
      (by rw [hspc]; exact ⟨by omega, by exact_mod_cast hm⟩)
    have hpcnat : s.pc.toNat = m := by rw [hspc]; rfl
    rw [hpcnat, hsmem] at hget
    have hv := hacc instr
      (List.getElem?_mem ((List.getElem?_take_of_lt (by omega : m < k)).trans hget))
    have hop : instr.op ≠ "halt" := by
      intro h
      apply hno m (by omega)
      rw [op_at_eq_some _ _ _ hget, h]
    obtain ⟨s1, he, h1pc, h1mem, h1len, h1dm⟩ :=
      execute_instr_in_range s instr hslen hv hop
    refine ⟨s1, by rw [h1pc, hspc]; push_cast; rfl, by rw [h1mem, hsmem], h1len,
      by rw [h1dm, hsdm], ?_, ?_⟩
    · exact iterate_step_succ_end m cpu s s1 hsit (by rw [step_of_fetch s instr hf, he])
    · intro fuel
      have h1 : fuel + (m + 1) = (fuel + 1) + m := by omega
      rw [h1, hsloop (fuel + 1), execute_loop_next s s1 instr fuel m _ hf he,
        program_trace_succ, op_at_eq_some _ _ _ hget]
      rfl

theorem run_upto (cpu : CPU) (k : Nat) (hpc : cpu.pc = 0)
    (hlen : cpu.regs.length = NUM_REGS) (hmem : cpu.instr_mem.length = MEM_SIZE)
    (hregs : RegsInRange cpu.instr_mem) (hk : k ≤ MEM_SIZE)
    (hno : ∀ j, j < k → op_at cpu.instr_mem j ≠ some "halt") (n : Nat) (hn : n ≤ k) :
    ∃ s, s.pc = (n : Int) ∧ s.instr_mem = cpu.instr_mem ∧ s.regs.length = NUM_REGS ∧
      s.data_mem = cpu.data_mem ∧ iterate_step n cpu = some s ∧
      ∀ fuel, execute_loop (fuel + n) cpu 0 [] =
        execute_loop fuel s n (program_trace cpu.instr_mem n) :=
  run_upto_acc cpu k hpc hlen hmem (accessesInRange_take cpu.instr_mem k hregs) hk hno n hn

theorem iterate_step_one (a b : CPU) (h : iterate_step 1 a = some b) : step a = .next b := by
  unfold iterate_step at h
  cases hs : step a with
  | next c =>
    rw [hs] at h
    exact congrArg Step.next (Option.some.inj h)
  | halt c => rw [hs] at h; exact absurd h (by simp)
  | fault => rw [hs] at h; exact absurd h (by simp)

theorem exists_first_halt (mem : List Instruction) (h : Nat)
    (hop : op_at mem h = some "halt") : ∃ k, k ≤ h ∧ FirstHaltAt mem k := by
  have hex : ∃ j, op_at mem j = some "halt" := ⟨h, hop⟩
  exact ⟨Nat.find hex, Nat.find_min' hex hop, Nat.find_spec hex,
    fun j hj => Nat.find_min hex hj⟩

/-- A pass that reaches the loop tail during the first `k` passes. -/
theorem run_pass_next (cpu : CPU) (k : Nat) (hpc : cpu.pc = 0)
    (hlen : cpu.regs.length = NUM_REGS) (hmem : cpu.instr_mem.length = MEM_SIZE)
    (hregs : RegsInRange cpu.instr_mem) (hk : k ≤ MEM_SIZE)
    (hno : ∀ j, j < k → op_at cpu.instr_mem j ≠ some "halt") (n : Nat) (hn : n < k) :
    ∃ s s1, iterate_step n cpu = some s ∧ s.pc = (n : Int) ∧ step s = .next s1 ∧
      s1.pc = (n : Int) + 1 := by
  obtain ⟨s, hspc, _, _, _, hsit, _⟩ := run_upto cpu k hpc hlen hmem hregs hk hno n (by omega)
  obtain ⟨s1, h1pc, _, _, _, h1it, _⟩ :=
    run_upto cpu k hpc hlen hmem hregs hk hno (n + 1) (by omega)
  refine ⟨s, s1, hsit, hspc, ?_, by rw [h1pc]; push_cast; rfl⟩
  apply iterate_step_one
  have h := iterate_step_add n 1 cpu
  rw [hsit, h1it] at h
  exact h.symm

/-- The whole run of a program whose first `halt` is in slot `k` and whose
instructions before it access only registers inside `regs`. -/
theorem run_to_first_halt_acc (cpu : CPU) (k : Nat) (hpc : cpu.pc = 0)
    (hlen : cpu.regs.length = NUM_REGS) (hmem : cpu.instr_mem.length = MEM_SIZE)
    (hacc : ∀ instr ∈ cpu.instr_mem.take k, AccessesInRange instr) (hk : k < MEM_SIZE)
    (hhalt : FirstHaltAt cpu.instr_mem k) :
    ∃ final, final.pc = (k : Int) ∧ final.data_mem = cpu.data_mem ∧
      final.instr_mem = cpu.instr_mem ∧
      iterate_step k cpu = some final ∧ step final = .halt final ∧
      (∀ fuel, k + 1 ≤ fuel →
        execute_pipeline fuel cpu =
          .halted final k (program_trace cpu.instr_mem (k + 1))) ∧
      (∀ fuel, fuel ≤ k → execute_pipeline fuel cpu = .out_of_fuel) := by
  obtain ⟨s, hspc, hsmem, hslen, hsdm, hsit, hsloop⟩ :=
    run_upto_acc cpu k hpc hlen hmem hacc (by omega) hhalt.2 k (le_refl k)
  obtain ⟨instr, hget, hf⟩ := fetch_in_range s (by rw [hsmem]; exact hmem)
    (by rw [hspc]; exact ⟨by omega, by exact_mod_cast hk⟩)
  have hpcnat : s.pc.toNat = k := by rw [hspc]; rfl
  rw [hpcnat, hsmem] at hget
  have hop : instr.op = "halt" := by
    have h := hhalt.1
    rw [op_at_eq_some _ _ _ hget] at h
    exact Option.some.inj h
  have he : execute_instr s instr = .halt s := by
    simp [execute_instr, hop]
  refine ⟨s, hspc, hsdm, hsmem, hsit, by rw [step_of_fetch s instr hf, he], ?_, ?_⟩
  · intro fuel hfuel
    obtain ⟨f, rfl⟩ : ∃ f, fuel = (f + 1) + k := ⟨fuel - (k + 1), by omega⟩
    unfold execute_pipeline
    rw [hsloop (f + 1), execute_loop_halt s s instr f k _ hf he, program_trace_succ,
      op_at_eq_some _ _ _ hget]
    rfl
  · intro fuel hfuel
    obtain ⟨s2, _, _, _, _, _, h2loop⟩ :=
      run_upto_acc cpu k hpc hlen hmem hacc (by omega) hhalt.2 fuel hfuel
    have h := h2loop 0
    rw [Nat.zero_add] at h
    unfold execute_pipeline
    rw [h]; rfl

theorem run_to_first_halt (cpu : CPU) (k : Nat) (hpc : cpu.pc = 0)
    (hlen : cpu.regs.length = NUM_REGS) (hmem : cpu.instr_mem.length = MEM_SIZE)
    (hregs : RegsInRange cpu.instr_mem) (hk : k < MEM_SIZE)
    (hhalt : FirstHaltAt cpu.instr_mem k) :
    ∃ final, final.pc = (k : Int) ∧ final.data_mem = cpu.data_mem ∧
      final.instr_mem = cpu.instr_mem ∧
      iterate_step k cpu = some final ∧ step final = .halt final ∧
      (∀ fuel, k + 1 ≤ fuel →
        execute_pipeline fuel cpu =
          .halted final k (program_trace cpu.instr_mem (k + 1))) ∧
      (∀ fuel, fuel ≤ k → execute_pipeline fuel cpu = .out_of_fuel) :=
  run_to_first_halt_acc cpu k hpc hlen hmem (accessesInRange_take cpu.instr_mem k hregs) hk
    hhalt

/-- C13. For a CPU with 32 registers and a 10-slot instruction memory in which
every instruction has `rd`, `rs`, `rt` in 0..31 and the first `halt` is in slot
`k < 10`, the run from program counter 0 halts after exactly `k` passes that
are not `halt`, with program counter `k`: each of the passes 0..k-1 reaches
the loop tail and moves the program counter from `n` to `n + 1`, pass `k`
leaves the loop, the run halts with `cycle = k` for every fuel above `k` and
for no smaller fuel. Nothing is assumed about the opcode names in the slots
before `k` except that they are not `halt`. -/
theorem C13_run_halts_at_first_halt (cpu : CPU) (k : Nat) (hpc : cpu.pc = 0)
    (hlen : cpu.regs.length = NUM_REGS) (hmem : cpu.instr_mem.length = MEM_SIZE)
    (hregs : RegsInRange cpu.instr_mem) (hk : k < MEM_SIZE)
    (hhalt : FirstHaltAt cpu.instr_mem k) :
    ∃ final, final.pc = (k : Int) ∧
      (∀ fuel, k + 1 ≤ fuel → ∃ trace, execute_pipeline fuel cpu = .halted final k trace) ∧
      (∀ fuel, fuel ≤ k → execute_pipeline fuel cpu = .out_of_fuel) ∧
      iterate_step k cpu = some final ∧ step final = .halt final ∧
      ∀ n, n < k → ∃ s s1, iterate_step n cpu = some s ∧ s.pc = (n : Int) ∧
        step s = .next s1 ∧ s1.pc = (n : Int) + 1 := by
  obtain ⟨final, hfpc, _, _, hit, hstep, hrun, hshort⟩ :=
    run_to_first_halt cpu k hpc hlen hmem hregs hk hhalt
  exact ⟨final, hfpc, fun fuel hfuel => ⟨_, hrun fuel hfuel⟩, hshort, hit, hstep,
    fun n hn => run_pass_next cpu k hpc hlen hmem hregs (by omega) hhalt.2 n hn⟩

theorem C13_run_halts_at_first_halt_witness :
    mixed_cpu.pc = 0 ∧ mixed_cpu.regs.length = NUM_REGS ∧
      mixed_cpu.instr_mem.length = MEM_SIZE ∧ RegsInRange mixed_cpu.instr_mem ∧
      3 < MEM_SIZE ∧ FirstHaltAt mixed_cpu.instr_mem 3 ∧
      ∃ final, final.pc = ((3 : Nat) : Int) ∧
        (∀ fuel, 3 + 1 ≤ fuel →
          ∃ trace, execute_pipeline fuel mixed_cpu = .halted final 3 trace) ∧
        (∀ fuel, fuel ≤ 3 → execute_pipeline fuel mixed_cpu = .out_of_fuel) ∧
        iterate_step 3 mixed_cpu = some final ∧ step final = .halt final ∧
        ∀ n, n < 3 → ∃ s s1, iterate_step n mixed_cpu = some s ∧ s.pc = (n : Int) ∧
          step s = .next s1 ∧ s1.pc = (n : Int) + 1 :=
  ⟨by decide, by decide, by decide, by decide, by decide, by decide,
    C13_run_halts_at_first_halt mixed_cpu 3 (by decide) (by decide) (by decide) (by decide)
      (by decide) (by decide)⟩

/-- C14. For a CPU with 32 registers and a 10-slot instruction memory in which
every instruction has `rd`, `rs`, `rt` in 0..31 and some slot `h < 10` holds
`halt`, a run from program counter 0 never leaves the arrays: with `k` the
slot of the first `halt`, every state the loop reaches has its program
counter in 0..9 and at most `k`, its fetch succeeds and its pass does not
fault, and no amount of fuel makes the run end in `fault`. -/
theorem C14_run_stays_in_bounds (cpu : CPU) (h : Nat) (hpc : cpu.pc = 0)
    (hlen : cpu.regs.length = NUM_REGS) (hmem : cpu.instr_mem.length = MEM_SIZE)
    (hregs : RegsInRange cpu.instr_mem) (hh : h < MEM_SIZE)
    (hop : op_at cpu.instr_mem h = some "halt") :
    ∃ k, k ≤ h ∧ FirstHaltAt cpu.instr_mem k ∧
      (∀ fuel, execute_pipeline fuel cpu ≠ .fault) ∧
      ∀ n s, iterate_step n cpu = some s →
        0 ≤ s.pc ∧ s.pc ≤ (k : Int) ∧ s.pc < (MEM_SIZE : Int) ∧
          (fetch s).isSome = true ∧ step s ≠ .fault := by
  obtain ⟨k, hkh, hhalt⟩ := exists_first_halt cpu.instr_mem h hop
  have hk : k < MEM_SIZE := by omega
  obtain ⟨final, hfpc, _, _, hit, hstep, hrun, hshort⟩ :=
    run_to_first_halt cpu k hpc hlen hmem hregs hk hhalt
  have hfetch : ∀ s, step s ≠ .fault → (fetch s).isSome = true := by
    intro s hs
    cases hf : fetch s with
    | none => exact absurd (by simp only [step, hf]) hs
    | some instr => rfl
  refine ⟨k, hkh, hhalt, ?_, ?_⟩
  · intro fuel
    by_cases hfuel : fuel ≤ k
    · rw [hshort fuel hfuel]; exact fun hc => Outcome.noConfusion hc
    · rw [hrun fuel (by omega)]; exact fun hc => Outcome.noConfusion hc
  · intro n s hn
    have hkcast : ((k : Nat) : Int) < (MEM_SIZE : Int) := by exact_mod_cast hk
    rcases Nat.lt_trichotomy n k with hlt | heq | hgt
    · obtain ⟨s', s1, hs'it, hs'pc, hs'step, _⟩ :=
        run_pass_next cpu k hpc hlen hmem hregs (by omega) hhalt.2 n hlt
      have hss : s' = s := Option.some.inj (hs'it.symm.trans hn)
      subst hss
      have hne : step s' ≠ .fault := by rw [hs'step]; exact fun hc => Step.noConfusion hc
      exact ⟨by rw [hs'pc]; omega, by rw [hs'pc]; omega, by rw [hs'pc]; omega,
        hfetch s' hne, hne⟩
    · subst heq
      have hss : final = s := Option.some.inj (hit.symm.trans hn)
      subst hss
      have hne : step final ≠ .fault := by rw [hstep]; exact fun hc => Step.noConfusion hc
      exact ⟨by rw [hfpc]; omega, by rw [hfpc], by rw [hfpc]; exact hkcast,
        hfetch final hne, hne⟩
    · have hnone := iterate_step_stops k n cpu final hit
        (fun s1 => by rw [hstep]; exact fun hc => Step.noConfusion hc) hgt
      rw [hnone] at hn
      exact absurd hn (by simp)

theorem C14_run_stays_in_bounds_witness :
    mixed_cpu.pc = 0 ∧ mixed_cpu.regs.length = NUM_REGS ∧
      mixed_cpu.instr_mem.length = MEM_SIZE ∧ RegsInRange mixed_cpu.instr_mem ∧
      3 < MEM_SIZE ∧ op_at mixed_cpu.instr_mem 3 = some "halt" ∧
      ∃ k, k ≤ 3 ∧ FirstHaltAt mixed_cpu.instr_mem k ∧
        (∀ fuel, execute_pipeline fuel mixed_cpu ≠ .fault) ∧
        ∀ n s, iterate_step n mixed_cpu = some s →
          0 ≤ s.pc ∧ s.pc ≤ (k : Int) ∧ s.pc < (MEM_SIZE : Int) ∧
            (fetch s).isSome = true ∧ step s ≠ .fault :=
  ⟨by decide, by decide, by decide, by decide, by decide, by decide,
    C14_run_stays_in_bounds mixed_cpu 3 (by decide) (by decide) (by decide) (by decide)
      (by decide) (by decide)⟩

/-! ## The printed trace -/

theorem write_back_data_mem (cpu : CPU) (rd : Int) (alu : Option ALU) (s : CPU)
    (h : write_back cpu rd alu = .next s ∨ write_back cpu rd alu = .halt s) :
    s.data_mem = cpu.data_mem := by
  unfold write_back write_reg advance at h
  cases alu with
  | none => simp at h
  | some a =>
    simp only at h
    split at h
    · simp at h
    · rename_i c hc
      split at hc
      · have hcc := Option.some.inj hc
        subst hcc
        rcases h with h | h
        · have hs := Step.next.inj h
          subst hs
          rfl
        · exact absurd h (by simp)
      · exact absurd hc (by simp)

theorem execute_instr_data_mem (cpu : CPU) (instr : Instruction) (s : CPU)
    (h : execute_instr cpu instr = .next s ∨ execute_instr cpu instr = .halt s) :
    s.data_mem = cpu.data_mem := by
  unfold execute_instr at h
  split at h
  · exact write_back_data_mem _ _ _ _ h
  split at h
  · exact write_back_data_mem _ _ _ _ h
  split at h
  · exact write_back_data_mem _ _ _ _ h
  split at h
  · exact write_back_data_mem _ _ _ _ h
  split at h
  · exact write_back_data_mem _ _ _ _ h
  split at h
  · exact write_back_data_mem _ _ _ _ h
  split at h
  · rcases h with h | h
    · exact absurd h (by simp)
    · have hs := Step.halt.inj h
      subst hs
      rfl
  · unfold advance at h
    rcases h with h | h
    · have hs := Step.next.inj h
      subst hs
      rfl
    · exact absurd h (by simp)

theorem step_data_mem (cpu s : CPU) (h : step cpu = .next s ∨ step cpu = .halt s) :
    s.data_mem = cpu.data_mem := by
  unfold step at h
  cases hf : fetch cpu with
  | none => rw [hf] at h; simp at h
  | some instr => rw [hf] at h; exact execute_instr_data_mem cpu instr s h

theorem iterate_step_data_mem (n : Nat) (cpu s : CPU) (h : iterate_step n cpu = some s) :
    s.data_mem = cpu.data_mem := by
  induction n generalizing cpu with
  | zero =>
    have hs : cpu = s := Option.some.inj h
    rw [hs]
  | succ m ih =>
    unfold iterate_step at h
    cases hstep : step cpu with
    | next c =>
      rw [hstep] at h
      rw [ih c h, step_data_mem cpu c (Or.inl hstep)]
    | halt c => rw [hstep] at h; exact absurd h (by simp)
    | fault => rw [hstep] at h; exact absurd h (by simp)

theorem execute_loop_data_mem (fuel : Nat) (cpu final : CPU) (cycle c1 : Nat)
    (trace t1 : List (Nat × String))
    (h : execute_loop fuel cpu cycle trace = .halted final c1 t1) :
    final.data_mem = cpu.data_mem := by
  induction fuel generalizing cpu cycle trace with
  | zero => exact absurd h (by simp [execute_loop])
  | succ m ih =>
    cases hf : fetch cpu with
    | none => exact absurd h (by simp [execute_loop, hf])
    | some instr =>
      cases he : execute_instr cpu instr with
      | fault => exact absurd h (by simp [execute_loop, hf, he])
      | halt c =>
        simp only [execute_loop, hf, he] at h
        have hc : c = final := (Outcome.halted.inj h).1
        rw [← hc]
        exact execute_instr_data_mem cpu instr c (Or.inr he)
      | next c =>
        simp only [execute_loop, hf, he] at h
        rw [ih c _ _ h, execute_instr_data_mem cpu instr c (Or.inl he)]

theorem replicate_zero_getElem? (n i : Nat) (hi : i < n) :
    (List.replicate n (0 : Int))[i]? = some 0 :=
  List.getElem?_replicate_of_lt hi

/-- C16. After `init_cpu` each of the 100 data-memory cells is 0, whatever the
CPU record held before. With any program `prog` in the instruction memory,
every state the loop reaches from there after any number of passes, and the
state any halting run ends in, still has 100 data-memory cells, all 0. The
passes covered are those whose register indices are in 0..31; the embedding
follows no pass that leaves the register file, so the statement is silent
about such a pass. -/
theorem C16_data_memory_stays_zero (cpu : CPU) (prog : List Instruction) :
    (init_cpu cpu).data_mem.length = DATA_MEM_SIZE ∧
      (∀ i, i < DATA_MEM_SIZE → (init_cpu cpu).data_mem[i]? = some 0) ∧
      (∀ n s, iterate_step n { (init_cpu cpu) with instr_mem := prog } = some s →
        s.data_mem.length = DATA_MEM_SIZE ∧ ∀ i, i < DATA_MEM_SIZE → s.data_mem[i]? = some 0) ∧
      ∀ fuel final cycle lines,
        execute_pipeline fuel { (init_cpu cpu) with instr_mem := prog } =
            .halted final cycle lines →
          final.data_mem.length = DATA_MEM_SIZE ∧
            ∀ i, i < DATA_MEM_SIZE → final.data_mem[i]? = some 0 := by
  refine ⟨List.length_replicate _ _, fun i hi => replicate_zero_getElem? _ i hi, ?_, ?_⟩
  · intro n s h
    rw [iterate_step_data_mem n _ s h]
    exact ⟨List.length_replicate _ _, fun i hi => replicate_zero_getElem? _ i hi⟩
  · intro fuel final cycle lines h
    rw [execute_loop_data_mem fuel _ final 0 cycle [] lines h]
    exact ⟨List.length_replicate _ _, fun i hi => replicate_zero_getElem? _ i hi⟩

theorem C16_data_memory_stays_zero_witness :
    iterate_step 2 { (init_cpu blank_cpu) with instr_mem := mixed_cpu.instr_mem } =
        some { mixed_cpu with regs := mixed_cpu.regs.set 8 1, pc := 2 } ∧
      execute_pipeline 4 { (init_cpu blank_cpu) with instr_mem := mixed_cpu.instr_mem } =
        .halted { mixed_cpu with regs := (mixed_cpu.regs.set 8 1).set 9 2, pc := 3 } 3
          [(0, "addi"), (1, "nop"), (2, "add"), (3, "halt")] ∧
      ({ mixed_cpu with regs := mixed_cpu.regs.set 8 1, pc := 2 } : CPU).data_mem.length =
        DATA_MEM_SIZE ∧
      ∀ i, i < DATA_MEM_SIZE →
        ({ mixed_cpu with regs := (mixed_cpu.regs.set 8 1).set 9 2, pc := 3 } :
          CPU).data_mem[i]? = some 0 :=
  ⟨by decide, by decide,
    ((C16_data_memory_stays_zero blank_cpu mixed_cpu.instr_mem).2.2.1 2 _ (by decide)).1,
    ((C16_data_memory_stays_zero blank_cpu mixed_cpu.instr_mem).2.2.2 4 _ 3
      [(0, "addi"), (1, "nop"), (2, "add"), (3, "halt")] (by decide)).2⟩

end MIPS
